import Mathlib

/-!
Verification of the blend-optimization engine of src/cement_optimizer.py.

The program builds a linear program: minimise the dot product of prices and
the proportion vector x, subject to the single equality row (sum x = 1, with
as many columns as the material list) and per-material box bounds, then calls
scipy.optimize.linprog (method highs) and postprocesses the result.  Numbers
are embedded as rationals.  The scipy solver itself is not part of src, so it
is modelled from the specification of the LP it solves; everything else is a
direct translation of the source.
-/

set_option linter.unusedVariables false

/-- Dot product of two rational vectors, as computed by numpy dot on matched
1-D arrays (component-wise products, summed). -/
def dot (xs ys : List ℚ) : ℚ := (List.zipWith (· * ·) xs ys).sum

/-- Result of calling into a Python routine: either a returned value or a
raised exception. -/
inductive PyCall (α : Type) where
  | ok (val : α)
  | raised
deriving DecidableEq

/-- Modelled from the spec: the result record of scipy.optimize.linprog
(the solver is missing from src, which only calls it): a success flag, a
numeric status code (0 optimal, 1 iteration limit, 2 infeasible), the
solution vector x and the objective value (the res.fun field, called cost
here because fun is a Lean keyword). -/
structure LinprogResult where
  success : Bool
  status : Nat
  x : List ℚ
  cost : ℚ
deriving DecidableEq

/-- Per-material slack capacities: max bound minus min bound, component-wise. -/
def capsOf (mins maxs : List ℚ) : List ℚ := List.zipWith (fun a b => b - a) mins maxs

/-- Total capacity of the (cost, capacity) pairs whose cost is at most t. -/
def capsLE (t : ℚ) (l : List (ℚ × ℚ)) : ℚ :=
  ((l.filter (fun p => decide (p.1 ≤ t))).map Prod.snd).sum

/-- Total capacity of the (cost, capacity) pairs whose cost is strictly below t. -/
def capsLT (t : ℚ) (l : List (ℚ × ℚ)) : ℚ :=
  ((l.filter (fun p => decide (p.1 < t))).map Prod.snd).sum

/-- Total capacity of the (cost, capacity) pairs whose cost equals t. -/
def capsEQ (t : ℚ) (l : List (ℚ × ℚ)) : ℚ :=
  ((l.filter (fun p => decide (p.1 = t))).map Prod.snd).sum

/-- Candidate threshold costs: those costs t occurring in the problem whose
cumulative capacity capsLE t covers the slack budget B. -/
def thresholds (B : ℚ) (l : List (ℚ × ℚ)) : List ℚ :=
  (l.map Prod.fst).filter (fun t => decide (B ≤ capsLE t l))

/-- Minimum of a rational against a list, by folding. -/
def minList (a : ℚ) (l : List ℚ) : ℚ := l.foldl min a

/-- Maximum of a rational against a list, by folding. -/
def maxList (a : ℚ) (l : List ℚ) : ℚ := l.foldl max a

/-- Least element of a list of rationals, none when the list is empty. -/
def least? (l : List ℚ) : Option ℚ :=
  match l with
  | [] => none
  | a :: rest => some (minList a rest)

/-- Threshold allocation pass at threshold cost t with remaining budget r:
pairs strictly cheaper than t receive their full capacity, pairs at cost t
absorb the remaining budget left to right, costlier pairs receive nothing. -/
def distAlloc (t : ℚ) : ℚ → List (ℚ × ℚ) → List ℚ
  | _, [] => []
  | r, (c, cap) :: l =>
    if c < t then cap :: distAlloc t r l
    else if c = t then min cap r :: distAlloc t (r - min cap r) l
    else 0 :: distAlloc t r l

/-- The solution vector assembled for threshold cost t: the lower bounds plus
the threshold allocation of the slack budget 1 - sum mins. -/
def solveX (c mins maxs : List ℚ) (t : ℚ) : List ℚ :=
  List.zipWith (· + ·) mins
    (distAlloc t (1 - mins.sum - capsLT t (c.zip (capsOf mins maxs))) (c.zip (capsOf mins maxs)))

/-- Modelled from the spec: scipy.optimize.linprog (method highs) on the blend
LP, which is missing from src.  Per the spec, infeasibility is signalled
exactly when the box bounds cannot sum to 1; otherwise the optimum is found
by threshold allocation: every material strictly cheaper than the threshold
cost is filled to its upper bound, materials at the threshold cost share the
remaining budget, and costlier materials stay at their lower bound. -/
def linprogCore (c mins maxs : List ℚ) : LinprogResult :=
  if mins.sum ≤ 1 ∧ 1 ≤ maxs.sum then
    match least? (thresholds (1 - mins.sum) (c.zip (capsOf mins maxs))) with
    | some t => ⟨true, 0, solveX c mins maxs t, dot c (solveX c mins maxs t)⟩
    | none => ⟨false, 2, [], 0⟩
  else ⟨false, 2, [], 0⟩

/-- Modelled from the spec: the scipy linprog entry point as called at line 89
of the source, where A_eq is a single row of ones with neq columns.  Scipy
validates shapes before solving: the call raises unless the objective length
equals both the A_eq column count and the length of the bounds list. -/
def linprog (c : List ℚ) (neq : Nat) (bounds : List (ℚ × ℚ)) : PyCall LinprogResult :=
  if c.length = neq ∧ bounds.length = c.length then
    PyCall.ok (linprogCore c (bounds.map Prod.fst) (bounds.map Prod.snd))
  else PyCall.raised

/-- Lines 91 to 94 of src/cement_optimizer.py: on success return res.x and
res.fun, otherwise return the pair (None, None). -/
def optimizeReturn (res : LinprogResult) : Option (List ℚ) × Option ℚ :=
  if res.success then (some res.x, some res.cost) else (none, none)

/-- Lines 77 to 94 of src/cement_optimizer.py: optimize_cost takes the prices
as objective, builds the equality row of width len(materials), the bounds as
zip(min_ratios, max_ratios), calls linprog and postprocesses the result.  The
material list, which the source reads as a global, is passed explicitly. -/
def optimize_cost (materials : List String) (prices min_ratios max_ratios : List ℚ) :
    PyCall (Option (List ℚ) × Option ℚ) :=
  match linprog prices materials.length (min_ratios.zip max_ratios) with
  | PyCall.ok res => PyCall.ok (optimizeReturn res)
  | PyCall.raised => PyCall.raised

/-- Line 29 of src/cement_optimizer.py: the material identifiers. -/
def appMaterials : List String :=
  ["熟料", "粉煤灰", "石灰石", "火山灰", "燃煤炉渣", "磷石膏", "矿粉"]

/-- Line 30 of src/cement_optimizer.py: the July reference prices. -/
def prices_july : List ℚ := [225.60, 19.07, 39.31, 34.46, 14.51, 0.09, 108.06]

/-- Line 31 of src/cement_optimizer.py: the July reference proportions, in percent. -/
def ratios_july : List ℚ := [44.10, 22.70, 11.80, 0.00, 7.30, 5.00, 9.10]

/-- Line 101 of src/cement_optimizer.py: the optimization run of the app.  The
sidebar collects a strength target and a fineness target, but only the prices
and the ratio bounds are passed to optimize_cost; the two targets are unused. -/
def runOptimization (prices min_ratios max_ratios : List ℚ)
    (strength_target fineness_target : ℚ) : PyCall (Option (List ℚ) × Option ℚ) :=
  optimize_cost appMaterials prices min_ratios max_ratios

/-- Lines 97 to 98 of src/cement_optimizer.py: calculate_cost returns
np.dot(ratios, prices).  Numpy raises on mismatched 1-D lengths, modelled
as none. -/
def calculate_cost (ratios prices : List ℚ) : Option ℚ :=
  if ratios.length = prices.length then some (dot ratios prices) else none

/-- Modelled from the spec: the Cost Comparator, assembled from the inline
source computations (line 108 reference cost, lines 113 to 115 the three
metrics, lines 137 to 138 the per-material breakdowns).  It returns the
reference cost, the optimal cost, the savings, and both component-wise
cost-contribution breakdowns, and fails when a vector length mismatch makes
np.dot raise. -/
def compare_blends (reference optimal prices : List ℚ) :
    Option (ℚ × ℚ × ℚ × List ℚ × List ℚ) :=
  match calculate_cost reference prices, calculate_cost optimal prices with
  | some rc, some oc =>
      some (rc, oc, rc - oc,
        List.zipWith (· * ·) reference prices, List.zipWith (· * ·) optimal prices)
  | _, _ => none

/-- A vector y is a feasible blend for the given bounds: same dimension,
components within the box bounds, and summing to 1. -/
def Feasible (mins maxs y : List ℚ) : Prop :=
  y.length = mins.length ∧ y.length = maxs.length ∧ y.sum = 1 ∧
    ∀ i < y.length, mins.getD i 0 ≤ y.getD i 0 ∧ y.getD i 0 ≤ maxs.getD i 0

instance (mins maxs y : List ℚ) : Decidable (Feasible mins maxs y) := by
  unfold Feasible
  exact inferInstance

/-! Elementary list and dot-product lemmas. -/

theorem dot_cons (a b : ℚ) (xs ys : List ℚ) :
    dot (a :: xs) (b :: ys) = a * b + dot xs ys := by
  simp [dot]

theorem sum_zipWith_add (a : List ℚ) : ∀ b : List ℚ, a.length = b.length →
    (List.zipWith (· + ·) a b).sum = a.sum + b.sum := by
  induction a with
  | nil => intro b h; cases b <;> simp_all
  | cons x a ih =>
    intro b h
    cases b with
    | nil => simp at h
    | cons y b =>
      have h2 : a.length = b.length := by simpa using h
      simp [ih b h2]
      ring

theorem sum_zipWith_sub (a : List ℚ) : ∀ b : List ℚ, a.length = b.length →
    (List.zipWith (· - ·) a b).sum = a.sum - b.sum := by
  induction a with
  | nil => intro b h; cases b <;> simp_all
  | cons x a ih =>
    intro b h
    cases b with
    | nil => simp at h
    | cons y b =>
      have h2 : a.length = b.length := by simpa using h
      simp [ih b h2]
      ring

theorem capsOf_sum (mins : List ℚ) : ∀ maxs : List ℚ, mins.length = maxs.length →
    (capsOf mins maxs).sum = maxs.sum - mins.sum := by
  induction mins with
  | nil => intro maxs h; cases maxs <;> simp_all [capsOf]
  | cons x mins ih =>
    intro maxs h
    cases maxs with
    | nil => simp at h
    | cons y maxs =>
      have h2 : mins.length = maxs.length := by simpa using h
      simp [capsOf] at ih ⊢
      rw [ih maxs h2]
      ring

theorem dot_zipWith_add (c : List ℚ) : ∀ a b : List ℚ, a.length = b.length →
    dot c (List.zipWith (· + ·) a b) = dot c a + dot c b := by
  induction c with
  | nil => intro a b h; simp [dot]
  | cons z c ih =>
    intro a b h
    cases a with
    | nil => cases b <;> simp_all [dot]
    | cons x a =>
      cases b with
      | nil => simp at h
      | cons y b =>
        have h2 : a.length = b.length := by simpa using h
        simp [dot_cons, ih a b h2]
        ring

theorem dot_zipWith_sub (c : List ℚ) : ∀ a b : List ℚ, a.length = b.length →
    dot c (List.zipWith (· - ·) a b) = dot c a - dot c b := by
  induction c with
  | nil => intro a b h; simp [dot]
  | cons z c ih =>
    intro a b h
    cases a with
    | nil => cases b <;> simp_all [dot]
    | cons x a =>
      cases b with
      | nil => simp at h
      | cons y b =>
        have h2 : a.length = b.length := by simpa using h
        simp [dot_cons, ih a b h2]
        ring

theorem zipWith_getD (f : ℚ → ℚ → ℚ) (a : List ℚ) :
    ∀ (b : List ℚ) (i : Nat), i < a.length → i < b.length →
      (List.zipWith f a b).getD i 0 = f (a.getD i 0) (b.getD i 0) := by
  induction a with
  | nil => intro b i h _; simp at h
  | cons x a ih =>
    intro b i h1 h2
    cases b with
    | nil => simp at h2
    | cons y b =>
      cases i with
      | zero => simp
      | succ j =>
        have h1a : j < a.length := by simpa using h1
        have h2a : j < b.length := by simpa using h2
        simp only [List.getD_cons_succ]
        exact ih b j h1a h2a

theorem zip_getD (a : List ℚ) :
    ∀ (b : List ℚ) (i : Nat), i < a.length → i < b.length →
      (a.zip b).getD i (0, 0) = (a.getD i 0, b.getD i 0) := by
  induction a with
  | nil => intro b i h _; simp at h
  | cons x a ih =>
    intro b i h1 h2
    cases b with
    | nil => simp at h2
    | cons y b =>
      cases i with
      | zero => simp
      | succ j =>
        have h1a : j < a.length := by simpa using h1
        have h2a : j < b.length := by simpa using h2
        simp only [List.getD_cons_succ]
        exact ih b j h1a h2a

theorem sum_snd_zip (a : List ℚ) : ∀ b : List ℚ, a.length = b.length →
    ((a.zip b).map Prod.snd).sum = b.sum := by
  induction a with
  | nil => intro b h; cases b <;> simp_all
  | cons x a ih =>
    intro b h
    cases b with
    | nil => simp at h
    | cons y b =>
      have h2 : a.length = b.length := by simpa using h
      simp [ih b h2]

/-! Lemmas about the capacity sums and list extrema. -/

theorem capsLE_cons (t c cap : ℚ) (l : List (ℚ × ℚ)) :
    capsLE t ((c, cap) :: l) = (if c ≤ t then cap else 0) + capsLE t l := by
  by_cases h : c ≤ t <;> simp [capsLE, List.filter_cons, h]

theorem capsLT_cons (t c cap : ℚ) (l : List (ℚ × ℚ)) :
    capsLT t ((c, cap) :: l) = (if c < t then cap else 0) + capsLT t l := by
  by_cases h : c < t <;> simp [capsLT, List.filter_cons, h]

theorem capsEQ_cons (t c cap : ℚ) (l : List (ℚ × ℚ)) :
    capsEQ t ((c, cap) :: l) = (if c = t then cap else 0) + capsEQ t l := by
  by_cases h : c = t <;> simp [capsEQ, List.filter_cons, h]

theorem capsEQ_nonneg (t : ℚ) (l : List (ℚ × ℚ)) (h : ∀ p ∈ l, 0 ≤ p.2) :
    0 ≤ capsEQ t l := by
  induction l with
  | nil => simp [capsEQ]
  | cons p l ih =>
    obtain ⟨c, cap⟩ := p
    rw [capsEQ_cons]
    have h1 : 0 ≤ cap := h (c, cap) (List.mem_cons_self _ _)
    have h2 : 0 ≤ capsEQ t l := ih (fun q hq => h q (List.mem_cons_of_mem _ hq))
    by_cases h3 : c = t <;> simp [h3] <;> linarith

theorem capsLE_split (t : ℚ) (l : List (ℚ × ℚ)) :
    capsLE t l = capsLT t l + capsEQ t l := by
  induction l with
  | nil => simp [capsLE, capsLT, capsEQ]
  | cons p l ih =>
    obtain ⟨c, cap⟩ := p
    rw [capsLE_cons, capsLT_cons, capsEQ_cons, ih]
    rcases lt_trichotomy c t with h | h | h
    · rw [if_pos h.le, if_pos h, if_neg h.ne]
      ring
    · rw [if_pos h.le, if_neg (by rw [h]; exact lt_irrefl t), if_pos h]
      ring
    · rw [if_neg (not_le.mpr h), if_neg (not_lt.mpr h.le), if_neg (ne_of_gt h)]
      ring

theorem capsLE_all (t : ℚ) (l : List (ℚ × ℚ)) (h : ∀ p ∈ l, p.1 ≤ t) :
    capsLE t l = (l.map Prod.snd).sum := by
  induction l with
  | nil => simp [capsLE]
  | cons p l ih =>
    obtain ⟨c, cap⟩ := p
    rw [capsLE_cons]
    have h1 : c ≤ t := h (c, cap) (List.mem_cons_self _ _)
    have h2 := ih (fun q hq => h q (List.mem_cons_of_mem _ hq))
    simp [h1, h2]

theorem capsLT_eq_capsLE_of (t s : ℚ) (l : List (ℚ × ℚ))
    (h : ∀ p ∈ l, (p.1 < t ↔ p.1 ≤ s)) : capsLT t l = capsLE s l := by
  induction l with
  | nil => simp [capsLT, capsLE]
  | cons p l ih =>
    obtain ⟨c, cap⟩ := p
    rw [capsLT_cons, capsLE_cons]
    have h1 := h (c, cap) (List.mem_cons_self _ _)
    have h2 := ih (fun q hq => h q (List.mem_cons_of_mem _ hq))
    by_cases h3 : c < t
    · rw [if_pos h3, if_pos (h1.mp h3), h2]
    · rw [if_neg h3, if_neg (fun hs => h3 (h1.mpr hs)), h2]

theorem minList_le_base (l : List ℚ) : ∀ a : ℚ, minList a l ≤ a := by
  induction l with
  | nil => intro a; simp [minList]
  | cons b l ih =>
    intro a
    have h0 : minList a (b :: l) = minList (min a b) l := by simp [minList]
    rw [h0]
    exact le_trans (ih (min a b)) (min_le_left a b)

theorem minList_mem (l : List ℚ) : ∀ a : ℚ, minList a l ∈ a :: l := by
  induction l with
  | nil => intro a; simp [minList]
  | cons b l ih =>
    intro a
    have h0 : minList a (b :: l) = minList (min a b) l := by simp [minList]
    rw [h0]
    rcases List.mem_cons.mp (ih (min a b)) with h2 | h2
    · rcases min_choice a b with h3 | h3 <;> rw [h2.trans h3] <;> simp
    · simp [h2]

theorem minList_le (l : List ℚ) : ∀ a x : ℚ, x ∈ a :: l → minList a l ≤ x := by
  induction l with
  | nil =>
    intro a x hx
    have hxa : x = a := by simpa using hx
    simp [minList, hxa]
  | cons b l ih =>
    intro a x hx
    have h0 : minList a (b :: l) = minList (min a b) l := by simp [minList]
    rw [h0]
    rcases List.mem_cons.mp hx with h1 | h1
    · rw [h1]
      exact le_trans (minList_le_base l (min a b)) (min_le_left a b)
    · rcases List.mem_cons.mp h1 with h2 | h2
      · rw [h2]
        exact le_trans (minList_le_base l (min a b)) (min_le_right a b)
      · exact ih (min a b) x (List.mem_cons_of_mem _ h2)

theorem maxList_le_base (l : List ℚ) : ∀ a : ℚ, a ≤ maxList a l := by
  induction l with
  | nil => intro a; simp [maxList]
  | cons b l ih =>
    intro a
    have h0 : maxList a (b :: l) = maxList (max a b) l := by simp [maxList]
    rw [h0]
    exact le_trans (le_max_left a b) (ih (max a b))

theorem maxList_mem (l : List ℚ) : ∀ a : ℚ, maxList a l ∈ a :: l := by
  induction l with
  | nil => intro a; simp [maxList]
  | cons b l ih =>
    intro a
    have h0 : maxList a (b :: l) = maxList (max a b) l := by simp [maxList]
    rw [h0]
    rcases List.mem_cons.mp (ih (max a b)) with h2 | h2
    · rcases max_choice a b with h3 | h3 <;> rw [h2.trans h3] <;> simp
    · simp [h2]

theorem maxList_ge (l : List ℚ) : ∀ a x : ℚ, x ∈ a :: l → x ≤ maxList a l := by
  induction l with
  | nil =>
    intro a x hx
    have hxa : x = a := by simpa using hx
    simp [maxList, hxa]
  | cons b l ih =>
    intro a x hx
    have h0 : maxList a (b :: l) = maxList (max a b) l := by simp [maxList]
    rw [h0]
    rcases List.mem_cons.mp hx with h1 | h1
    · rw [h1]
      exact le_trans (le_max_left a b) (maxList_le_base l (max a b))
    · rcases List.mem_cons.mp h1 with h2 | h2
      · rw [h2]
        exact le_trans (le_max_right a b) (maxList_le_base l (max a b))
      · exact ih (max a b) x (List.mem_cons_of_mem _ h2)

theorem least?_spec (l : List ℚ) (t : ℚ) (h : least? l = some t) :
    t ∈ l ∧ ∀ u ∈ l, t ≤ u := by
  cases l with
  | nil => simp [least?] at h
  | cons a rest =>
    have ht : minList a rest = t := by simpa [least?] using h
    constructor
    · rw [← ht]; exact minList_mem rest a
    · intro u hu; rw [← ht]; exact minList_le rest a u hu

theorem least?_of_ne_nil (l : List ℚ) (h : l ≠ []) : ∃ t, least? l = some t := by
  cases l with
  | nil => exact absurd rfl h
  | cons a rest => exact ⟨minList a rest, rfl⟩

/-! Lemmas about the threshold allocation pass. -/

theorem distAlloc_cons (t r c cap : ℚ) (l : List (ℚ × ℚ)) :
    distAlloc t r ((c, cap) :: l) =
      if c < t then cap :: distAlloc t r l
      else if c = t then min cap r :: distAlloc t (r - min cap r) l
      else 0 :: distAlloc t r l := rfl

theorem distAlloc_length (t : ℚ) : ∀ (r : ℚ) (l : List (ℚ × ℚ)),
    (distAlloc t r l).length = l.length := by
  intro r l
  induction l generalizing r with
  | nil => rfl
  | cons p l ih =>
    obtain ⟨c, cap⟩ := p
    rw [distAlloc_cons]
    by_cases h1 : c < t
    · simp [h1, ih]
    · by_cases h2 : c = t <;> simp [h1, h2, ih]

theorem distAlloc_sum (t : ℚ) : ∀ (r : ℚ) (l : List (ℚ × ℚ)),
    (∀ p ∈ l, 0 ≤ p.2) → 0 ≤ r → r ≤ capsEQ t l →
    (distAlloc t r l).sum = capsLT t l + r := by
  intro r l
  induction l generalizing r with
  | nil =>
    intro _ hr hcap
    have h0 : capsEQ t ([] : List (ℚ × ℚ)) = 0 := by simp [capsEQ]
    rw [h0] at hcap
    have hr0 : r = 0 := le_antisymm hcap hr
    simp [distAlloc, capsLT, hr0]
  | cons p l ih =>
    intro hcaps hr hcap
    obtain ⟨c, cap⟩ := p
    have hcapnn : 0 ≤ cap := hcaps (c, cap) (List.mem_cons_self _ _)
    have hcaps2 : ∀ q ∈ l, 0 ≤ q.2 := fun q hq => hcaps q (List.mem_cons_of_mem _ hq)
    rw [distAlloc_cons, capsLT_cons]
    rw [capsEQ_cons] at hcap
    by_cases h1 : c < t
    · rw [if_pos h1]
      rw [if_neg h1.ne] at hcap
      simp only [List.sum_cons]
      rw [ih r hcaps2 hr (by linarith)]
      rw [if_pos h1]
      ring
    · by_cases h2 : c = t
      · rw [if_neg h1, if_pos h2]
        rw [if_pos h2] at hcap
        simp only [List.sum_cons]
        have hmr : min cap r ≤ r := min_le_right cap r
        have hr2 : 0 ≤ r - min cap r := by linarith
        have hcap2 : r - min cap r ≤ capsEQ t l := by
          rcases le_total cap r with h3 | h3
          · rw [min_eq_left h3]
            linarith
          · rw [min_eq_right h3]
            have := capsEQ_nonneg t l hcaps2
            linarith
        rw [ih (r - min cap r) hcaps2 hr2 hcap2]
        rw [if_neg h1]
        ring
      · rw [if_neg h1, if_neg h2]
        rw [if_neg h2] at hcap
        simp only [List.sum_cons]
        rw [ih r hcaps2 hr (by linarith)]
        rw [if_neg h1]
        ring

theorem distAlloc_getD (t : ℚ) : ∀ (r : ℚ) (l : List (ℚ × ℚ)),
    (∀ p ∈ l, 0 ≤ p.2) → 0 ≤ r → ∀ i < l.length,
    0 ≤ (distAlloc t r l).getD i 0 ∧ (distAlloc t r l).getD i 0 ≤ (l.getD i (0, 0)).2 := by
  intro r l
  induction l generalizing r with
  | nil => intro _ _ i hi; simp at hi
  | cons p l ih =>
    intro hcaps hr i hi
    obtain ⟨c, cap⟩ := p
    have hcapnn : 0 ≤ cap := hcaps (c, cap) (List.mem_cons_self _ _)
    have hcaps2 : ∀ q ∈ l, 0 ≤ q.2 := fun q hq => hcaps q (List.mem_cons_of_mem _ hq)
    rw [distAlloc_cons]
    by_cases h1 : c < t
    · rw [if_pos h1]
      cases i with
      | zero => simp [hcapnn]
      | succ j =>
        have hj : j < l.length := by simpa using hi
        simp only [List.getD_cons_succ]
        exact ih r hcaps2 hr j hj
    · by_cases h2 : c = t
      · rw [if_neg h1, if_pos h2]
        cases i with
        | zero =>
          simp only [List.getD_cons_zero]
          exact ⟨le_min hcapnn hr, min_le_left cap r⟩
        | succ j =>
          have hj : j < l.length := by simpa using hi
          have hr2 : 0 ≤ r - min cap r := by
            have := min_le_right cap r
            linarith
          simp only [List.getD_cons_succ]
          exact ih (r - min cap r) hcaps2 hr2 j hj
      · rw [if_neg h1, if_neg h2]
        cases i with
        | zero => simp [hcapnn]
        | succ j =>
          have hj : j < l.length := by simpa using hi
          simp only [List.getD_cons_succ]
          exact ih r hcaps2 hr j hj

theorem dot_shift (t : ℚ) : ∀ (l : List (ℚ × ℚ)) (v : List ℚ), v.length = l.length →
    dot (l.map Prod.fst) v = dot (l.map (fun p => p.1 - t)) v + t * v.sum := by
  intro l
  induction l with
  | nil => intro v h; cases v <;> simp_all [dot]
  | cons p l ih =>
    intro v h
    obtain ⟨c, cap⟩ := p
    cases v with
    | nil => simp at h
    | cons b vs =>
      have h2 : vs.length = l.length := by simpa using h
      simp only [List.map_cons, dot_cons, List.sum_cons]
      rw [ih vs h2]
      ring

theorem distAlloc_shift_le (t : ℚ) : ∀ (r : ℚ) (l : List (ℚ × ℚ)) (y : List ℚ),
    y.length = l.length →
    (∀ i < l.length, 0 ≤ y.getD i 0 ∧ y.getD i 0 ≤ (l.getD i (0, 0)).2) →
    0 ≤ r →
    dot (l.map (fun p => p.1 - t)) (distAlloc t r l) ≤
      dot (l.map (fun p => p.1 - t)) y := by
  intro r l
  induction l generalizing r with
  | nil => intro y _ _ _; simp [dot]
  | cons p l ih =>
    intro y hlen hy hr
    obtain ⟨c, cap⟩ := p
    cases y with
    | nil => simp at hlen
    | cons b ys =>
      have hlen2 : ys.length = l.length := by simpa using hlen
      have hb := hy 0 (by simp)
      simp only [List.getD_cons_zero] at hb
      have hys : ∀ i < l.length, 0 ≤ ys.getD i 0 ∧ ys.getD i 0 ≤ (l.getD i (0, 0)).2 := by
        intro i hi
        have h3 := hy (i + 1) (by simpa using hi)
        simpa only [List.getD_cons_succ] using h3
      rw [distAlloc_cons]
      by_cases h1 : c < t
      · rw [if_pos h1]
        simp only [List.map_cons, dot_cons]
        have hhead : (c - t) * cap ≤ (c - t) * b :=
          mul_le_mul_of_nonpos_left hb.2 (by linarith)
        have htail := ih r ys hlen2 hys hr
        linarith
      · by_cases h2 : c = t
        · rw [if_neg h1, if_pos h2]
          simp only [List.map_cons, dot_cons]
          have hr2 : 0 ≤ r - min cap r := by
            have := min_le_right cap r
            linarith
          have htail := ih (r - min cap r) ys hlen2 hys hr2
          rw [h2, sub_self, zero_mul, zero_mul]
          linarith
        · rw [if_neg h1, if_neg h2]
          simp only [List.map_cons, dot_cons]
          have h3 : t ≤ c := not_lt.mp h1
          have hhead : (c - t) * 0 ≤ (c - t) * b :=
            mul_le_mul_of_nonneg_left hb.1 (by linarith)
          have htail := ih r ys hlen2 hys hr
          linarith

/-! Assembly lemmas for the modelled solver. -/

theorem capsOf_mem_nonneg (mins : List ℚ) : ∀ maxs : List ℚ,
    (∀ i < mins.length, mins.getD i 0 ≤ maxs.getD i 0) →
    ∀ x ∈ capsOf mins maxs, 0 ≤ x := by
  induction mins with
  | nil => intro maxs _ x hx; simp [capsOf] at hx
  | cons a mins ih =>
    intro maxs hbd x hx
    cases maxs with
    | nil => simp [capsOf] at hx
    | cons b maxs =>
      simp only [capsOf, List.zipWith_cons_cons] at hx
      rcases List.mem_cons.mp hx with h | h
      · have h0 := hbd 0 (by simp)
        simp only [List.getD_cons_zero] at h0
        rw [h]
        linarith
      · apply ih maxs ?_ x h
        intro i hi
        have h3 := hbd (i + 1) (by simpa using hi)
        simpa only [List.getD_cons_succ] using h3

theorem thresholds_ne_nil (c mins maxs : List ℚ)
    (hcm : c.length = mins.length) (hcx : c.length = maxs.length)
    (hf1 : mins.sum ≤ 1) (hf2 : 1 ≤ maxs.sum) :
    thresholds (1 - mins.sum) (c.zip (capsOf mins maxs)) ≠ [] := by
  have hcapslen : (capsOf mins maxs).length = c.length := by
    simp [capsOf, List.length_zipWith, ← hcm, ← hcx]
  have hxne : maxs ≠ [] := by
    intro h0
    rw [h0] at hf2
    simp at hf2
    linarith
  have hcne : c ≠ [] := by
    intro h0
    rw [h0] at hcx
    exact hxne (List.eq_nil_of_length_eq_zero hcx.symm)
  obtain ⟨c0, crest, hcc⟩ := List.exists_cons_of_ne_nil hcne
  have hMmem : maxList c0 crest ∈ c := by rw [hcc]; exact maxList_mem crest c0
  have hMub : ∀ a ∈ c, a ≤ maxList c0 crest := by
    intro a ha
    rw [hcc] at ha
    exact maxList_ge crest c0 a ha
  have hall : ∀ p ∈ c.zip (capsOf mins maxs), p.1 ≤ maxList c0 crest := by
    intro p hp
    obtain ⟨p1, p2⟩ := p
    exact hMub p1 (List.of_mem_zip hp).1
  have hLE : capsLE (maxList c0 crest) (c.zip (capsOf mins maxs)) = maxs.sum - mins.sum := by
    rw [capsLE_all _ _ hall, sum_snd_zip c (capsOf mins maxs) hcapslen.symm]
    exact capsOf_sum mins maxs (hcm ▸ hcx)
  have hBle : 1 - mins.sum ≤ capsLE (maxList c0 crest) (c.zip (capsOf mins maxs)) := by
    rw [hLE]
    linarith
  have hmapfst : (c.zip (capsOf mins maxs)).map Prod.fst = c :=
    List.map_fst_zip c (capsOf mins maxs) (le_of_eq hcapslen.symm)
  have hmem : maxList c0 crest ∈ thresholds (1 - mins.sum) (c.zip (capsOf mins maxs)) := by
    apply List.mem_filter.mpr
    constructor
    · rw [hmapfst]
      exact hMmem
    · exact decide_eq_true hBle
  exact List.ne_nil_of_mem hmem

theorem capsLT_least_le (B t : ℚ) (l : List (ℚ × ℚ)) (hB : 0 ≤ B)
    (ht : t ∈ thresholds B l) (hmin : ∀ u ∈ thresholds B l, t ≤ u) :
    capsLT t l ≤ B := by
  cases hF : l.filter (fun p => decide (p.1 < t)) with
  | nil =>
    have h0 : capsLT t l = 0 := by rw [capsLT, hF]; simp
    rw [h0]
    exact hB
  | cons q Frest =>
    have hM : maxList q.1 (Frest.map Prod.fst) ∈ (l.filter (fun p => decide (p.1 < t))).map Prod.fst := by
      rw [hF]
      exact maxList_mem (Frest.map Prod.fst) q.1
    obtain ⟨p2, hp2f, hp2eq⟩ := List.mem_map.mp hM
    have hp2l : p2 ∈ l := (List.mem_filter.mp hp2f).1
    have hp2lt : p2.1 < t := of_decide_eq_true (List.mem_filter.mp hp2f).2
    have hMlt : maxList q.1 (Frest.map Prod.fst) < t := hp2eq ▸ hp2lt
    have hub : ∀ p ∈ l, p.1 < t → p.1 ≤ maxList q.1 (Frest.map Prod.fst) := by
      intro p hp hlt
      have hpf : p ∈ l.filter (fun p => decide (p.1 < t)) :=
        List.mem_filter.mpr ⟨hp, decide_eq_true hlt⟩
      have hpm : p.1 ∈ q.1 :: Frest.map Prod.fst := by
        rw [← List.map_cons, ← hF]
        exact List.mem_map_of_mem Prod.fst hpf
      exact maxList_ge (Frest.map Prod.fst) q.1 p.1 hpm
    have hMnotin : capsLE (maxList q.1 (Frest.map Prod.fst)) l < B := by
      by_contra hn
      push_neg at hn
      have hmem : maxList q.1 (Frest.map Prod.fst) ∈ thresholds B l := by
        apply List.mem_filter.mpr
        refine ⟨?_, decide_eq_true hn⟩
        rw [← hp2eq]
        exact List.mem_map_of_mem Prod.fst hp2l
      have := hmin _ hmem
      linarith
    have heq : capsLT t l = capsLE (maxList q.1 (Frest.map Prod.fst)) l := by
      apply capsLT_eq_capsLE_of
      intro p hp
      constructor
      · exact hub p hp
      · intro hle
        linarith
    linarith

theorem core_infeasible (c mins maxs : List ℚ)
    (h : ¬(mins.sum ≤ 1 ∧ 1 ≤ maxs.sum)) :
    linprogCore c mins maxs = ⟨false, 2, [], 0⟩ := by
  unfold linprogCore
  rw [if_neg h]

theorem core_feasible_of_success (c mins maxs : List ℚ)
    (h : (linprogCore c mins maxs).success = true) :
    mins.sum ≤ 1 ∧ 1 ≤ maxs.sum := by
  by_contra hn
  rw [core_infeasible c mins maxs hn] at h
  simp at h

theorem core_success (c mins maxs : List ℚ)
    (hcm : c.length = mins.length) (hcx : c.length = maxs.length)
    (hbd : ∀ i < c.length, mins.getD i 0 ≤ maxs.getD i 0)
    (hf1 : mins.sum ≤ 1) (hf2 : 1 ≤ maxs.sum) :
    ∃ t, linprogCore c mins maxs =
        ⟨true, 0, solveX c mins maxs t, dot c (solveX c mins maxs t)⟩ ∧
      (solveX c mins maxs t).length = c.length ∧
      (solveX c mins maxs t).sum = 1 ∧
      (∀ i < c.length, mins.getD i 0 ≤ (solveX c mins maxs t).getD i 0 ∧
        (solveX c mins maxs t).getD i 0 ≤ maxs.getD i 0) ∧
      (∀ y : List ℚ, Feasible mins maxs y →
        dot c (solveX c mins maxs t) ≤ dot c y) := by
  have hcapslen : (capsOf mins maxs).length = c.length := by
    simp [capsOf, List.length_zipWith, ← hcm, ← hcx]
  have hpairslen : (c.zip (capsOf mins maxs)).length = c.length := by
    simp [List.length_zip, hcapslen]
  have hmapfst : (c.zip (capsOf mins maxs)).map Prod.fst = c :=
    List.map_fst_zip c (capsOf mins maxs) (le_of_eq hcapslen.symm)
  have hpairs_getD : ∀ i < c.length,
      (c.zip (capsOf mins maxs)).getD i (0, 0) =
        (c.getD i 0, maxs.getD i 0 - mins.getD i 0) := by
    intro i hi
    rw [zip_getD c (capsOf mins maxs) i hi (by rw [hcapslen]; exact hi)]
    unfold capsOf
    rw [zipWith_getD (fun a b => b - a) mins maxs i (by rw [← hcm]; exact hi)
      (by rw [← hcx]; exact hi)]
  have hcapsnn : ∀ p ∈ c.zip (capsOf mins maxs), 0 ≤ p.2 := by
    intro p hp
    obtain ⟨p1, p2⟩ := p
    exact capsOf_mem_nonneg mins maxs (fun i hi => hbd i (by rw [hcm]; exact hi))
      p2 (List.of_mem_zip hp).2
  have hthr := thresholds_ne_nil c mins maxs hcm hcx hf1 hf2
  obtain ⟨t, ht⟩ := least?_of_ne_nil _ hthr
  obtain ⟨htmem, htmin⟩ := least?_spec _ t ht
  have hB : (0 : ℚ) ≤ 1 - mins.sum := by linarith
  have hcapsLEt : 1 - mins.sum ≤ capsLE t (c.zip (capsOf mins maxs)) :=
    of_decide_eq_true (List.mem_filter.mp htmem).2
  have hcapsLT : capsLT t (c.zip (capsOf mins maxs)) ≤ 1 - mins.sum :=
    capsLT_least_le (1 - mins.sum) t _ hB htmem htmin
  have hr0 : 0 ≤ 1 - mins.sum - capsLT t (c.zip (capsOf mins maxs)) := by linarith
  have hrEQ : 1 - mins.sum - capsLT t (c.zip (capsOf mins maxs)) ≤
      capsEQ t (c.zip (capsOf mins maxs)) := by
    have h5 := capsLE_split t (c.zip (capsOf mins maxs))
    linarith
  refine ⟨t, ?_, ?_, ?_, ?_, ?_⟩
  · unfold linprogCore
    rw [if_pos ⟨hf1, hf2⟩, ht]
  · rw [solveX, List.length_zipWith, distAlloc_length, hpairslen, ← hcm]
    simp
  · rw [solveX, sum_zipWith_add mins _ (by rw [distAlloc_length, hpairslen, hcm])]
    rw [distAlloc_sum t _ _ hcapsnn hr0 hrEQ]
    ring
  · intro i hi
    have hga := distAlloc_getD t (1 - mins.sum - capsLT t (c.zip (capsOf mins maxs)))
      (c.zip (capsOf mins maxs)) hcapsnn hr0 i (by rw [hpairslen]; exact hi)
    rw [hpairs_getD i hi] at hga
    dsimp only at hga
    rw [solveX, zipWith_getD (· + ·) mins _ i (by rw [← hcm]; exact hi)
      (by rw [distAlloc_length, hpairslen]; exact hi)]
    constructor
    · linarith [hga.1]
    · linarith [hga.2]
  · intro y hy
    obtain ⟨hy1, hy2, hy3, hy4⟩ := hy
    have hylen : y.length = c.length := by rw [hy1, ← hcm]
    have hsub_len : (List.zipWith (· - ·) y mins).length = c.length := by
      rw [List.length_zipWith, hy1]
      simp [← hcm]
    have hsubsum : (List.zipWith (· - ·) y mins).sum = 1 - mins.sum := by
      rw [sum_zipWith_sub y mins hy1, hy3]
    have hsubbd : ∀ i < (c.zip (capsOf mins maxs)).length,
        0 ≤ (List.zipWith (· - ·) y mins).getD i 0 ∧
        (List.zipWith (· - ·) y mins).getD i 0 ≤
          ((c.zip (capsOf mins maxs)).getD i (0, 0)).2 := by
      intro i hi
      rw [hpairslen] at hi
      have hby := hy4 i (by rw [hylen]; exact hi)
      rw [zipWith_getD (· - ·) y mins i (by rw [hylen]; exact hi)
        (by rw [← hcm]; exact hi)]
      rw [hpairs_getD i hi]
      dsimp only
      constructor
      · linarith [hby.1]
      · linarith [hby.2]
    have halloclen : (distAlloc t (1 - mins.sum - capsLT t (c.zip (capsOf mins maxs)))
        (c.zip (capsOf mins maxs))).length = c.length := by
      rw [distAlloc_length, hpairslen]
    have hallocsum : (distAlloc t (1 - mins.sum - capsLT t (c.zip (capsOf mins maxs)))
        (c.zip (capsOf mins maxs))).sum = 1 - mins.sum := by
      rw [distAlloc_sum t _ _ hcapsnn hr0 hrEQ]
      ring
    have hshift := distAlloc_shift_le t
      (1 - mins.sum - capsLT t (c.zip (capsOf mins maxs)))
      (c.zip (capsOf mins maxs)) (List.zipWith (· - ·) y mins)
      (by rw [hsub_len, hpairslen]) hsubbd hr0
    have hda := dot_shift t (c.zip (capsOf mins maxs))
      (distAlloc t (1 - mins.sum - capsLT t (c.zip (capsOf mins maxs)))
        (c.zip (capsOf mins maxs))) (by rw [halloclen, hpairslen])
    rw [hmapfst, hallocsum] at hda
    have hdy := dot_shift t (c.zip (capsOf mins maxs))
      (List.zipWith (· - ·) y mins) (by rw [hsub_len, hpairslen])
    rw [hmapfst, hsubsum] at hdy
    have hxdec : dot c (solveX c mins maxs t) =
        dot c mins + dot c (distAlloc t (1 - mins.sum - capsLT t (c.zip (capsOf mins maxs)))
          (c.zip (capsOf mins maxs))) := by
      rw [solveX]
      exact dot_zipWith_add c mins _ (by rw [halloclen, hcm])
    have hydec : dot c (List.zipWith (· - ·) y mins) = dot c y - dot c mins :=
      dot_zipWith_sub c y mins hy1
    rw [hxdec]
    linarith

theorem linprog_ok (c : List ℚ) (neq : Nat) (bounds : List (ℚ × ℚ))
    (h1 : c.length = neq) (h2 : bounds.length = c.length) :
    linprog c neq bounds =
      PyCall.ok (linprogCore c (bounds.map Prod.fst) (bounds.map Prod.snd)) := by
  unfold linprog
  rw [if_pos ⟨h1, h2⟩]

theorem optimize_cost_eq (materials : List String) (prices mins maxs : List ℚ)
    (hp : prices.length = materials.length)
    (hm : mins.length = prices.length) (hx : maxs.length = prices.length) :
    optimize_cost materials prices mins maxs =
      PyCall.ok (optimizeReturn (linprogCore prices mins maxs)) := by
  unfold optimize_cost
  have hzlen : (mins.zip maxs).length = prices.length := by
    rw [List.length_zip, hm, hx]
    simp
  rw [linprog_ok prices materials.length (mins.zip maxs) hp hzlen]
  rw [List.map_fst_zip mins maxs (le_of_eq (hm.trans hx.symm))]
  rw [List.map_snd_zip mins maxs (le_of_eq (hx.trans hm.symm))]

theorem optimize_success_inv (materials : List String) (prices mins maxs x : List ℚ)
    (cst : ℚ) (hp : prices.length = materials.length)
    (hm : mins.length = prices.length) (hx : maxs.length = prices.length)
    (h : optimize_cost materials prices mins maxs = PyCall.ok (some x, some cst)) :
    (linprogCore prices mins maxs).success = true ∧
    x = (linprogCore prices mins maxs).x ∧ cst = (linprogCore prices mins maxs).cost := by
  rw [optimize_cost_eq materials prices mins maxs hp hm hx] at h
  have h2 : optimizeReturn (linprogCore prices mins maxs) = (some x, some cst) := by
    injection h
  unfold optimizeReturn at h2
  by_cases hs : (linprogCore prices mins maxs).success = true
  · rw [if_pos hs] at h2
    have h3 := congrArg Prod.fst h2
    have h4 := congrArg Prod.snd h2
    simp at h3 h4
    exact ⟨hs, h3.symm, h4.symm⟩
  · rw [if_neg hs] at h2
    have h3 := congrArg Prod.fst h2
    simp at h3

/-! The claims. -/

/-- C1: for every input with N materials, non-negative unit costs and bounds
with min at most max, optimize_cost succeeds (returns a proportion vector and
a cost) exactly when the bounds admit a vector summing to 1, that is when
sum mins ≤ 1 ≤ sum maxs; in every other well-formed case it returns the
infeasibility signal (None, None). -/
theorem c1_feasibility_bound (materials : List String) (prices mins maxs : List ℚ)
    (hp : prices.length = materials.length)
    (hm : mins.length = prices.length) (hx : maxs.length = prices.length)
    (hcost : ∀ i < prices.length, 0 ≤ prices.getD i 0)
    (hbd : ∀ i < prices.length, mins.getD i 0 ≤ maxs.getD i 0) :
    ((∃ x cst, optimize_cost materials prices mins maxs = PyCall.ok (some x, some cst)) ↔
      (mins.sum ≤ 1 ∧ 1 ≤ maxs.sum)) ∧
    (¬(mins.sum ≤ 1 ∧ 1 ≤ maxs.sum) →
      optimize_cost materials prices mins maxs = PyCall.ok (none, none)) := by
  have heq := optimize_cost_eq materials prices mins maxs hp hm hx
  constructor
  · constructor
    · rintro ⟨x, cst, hok⟩
      obtain ⟨hs, _, _⟩ := optimize_success_inv materials prices mins maxs x cst hp hm hx hok
      exact core_feasible_of_success prices mins maxs hs
    · rintro ⟨hf1, hf2⟩
      obtain ⟨t, hcore, _⟩ := core_success prices mins maxs hm.symm hx.symm hbd hf1 hf2
      refine ⟨solveX prices mins maxs t, dot prices (solveX prices mins maxs t), ?_⟩
      rw [heq, hcore]
      rfl
  · intro hn
    rw [heq, core_infeasible prices mins maxs hn]
    rfl

theorem c1_feasibility_bound_witness :
    ((∃ x cst, optimize_cost ["A", "B"] [3, 1] [1/4, 1/4] [3/4, 3/4] =
        PyCall.ok (some x, some cst)) ↔
      (([1/4, 1/4] : List ℚ).sum ≤ 1 ∧ 1 ≤ ([3/4, 3/4] : List ℚ).sum)) ∧
    (¬(([1/4, 1/4] : List ℚ).sum ≤ 1 ∧ 1 ≤ ([3/4, 3/4] : List ℚ).sum) →
      optimize_cost ["A", "B"] [3, 1] [1/4, 1/4] [3/4, 3/4] = PyCall.ok (none, none)) :=
  c1_feasibility_bound ["A", "B"] [3, 1] [1/4, 1/4] [3/4, 3/4] rfl rfl rfl
    (of_decide_eq_true (by with_unfolding_all rfl))
    (of_decide_eq_true (by with_unfolding_all rfl))

/-- C2: for every successful solve, the returned cost equals the dot product
of the unit costs with the returned vector, and no other vector satisfying
the box bounds and summing to 1 attains a strictly lower total cost. -/
theorem c2_optimality (materials : List String) (prices mins maxs x : List ℚ) (cst : ℚ)
    (hp : prices.length = materials.length)
    (hm : mins.length = prices.length) (hx : maxs.length = prices.length)
    (hbd : ∀ i < prices.length, mins.getD i 0 ≤ maxs.getD i 0)
    (hok : optimize_cost materials prices mins maxs = PyCall.ok (some x, some cst)) :
    cst = dot prices x ∧
    ∀ y : List ℚ, Feasible mins maxs y → dot prices x ≤ dot prices y := by
  obtain ⟨hs, hxv, hcv⟩ := optimize_success_inv materials prices mins maxs x cst hp hm hx hok
  obtain ⟨hf1, hf2⟩ := core_feasible_of_success prices mins maxs hs
  obtain ⟨t, hcore, hlen, hsum, hbds, hopt⟩ :=
    core_success prices mins maxs hm.symm hx.symm hbd hf1 hf2
  rw [hcore] at hxv hcv
  have hxv2 : x = solveX prices mins maxs t := hxv
  have hcv2 : cst = dot prices (solveX prices mins maxs t) := hcv
  constructor
  · rw [hxv2]
    exact hcv2
  · intro y hy
    rw [hxv2]
    exact hopt y hy

theorem c2_optimality_witness :
    (2 : ℚ) = dot [10, 2] [0, 1] ∧
    ∀ y : List ℚ, Feasible [0, 0] [1, 1] y → dot [10, 2] [0, 1] ≤ dot [10, 2] y :=
  c2_optimality ["A", "B"] [10, 2] [0, 0] [1, 1] [0, 1] 2 rfl rfl rfl
    (of_decide_eq_true (by with_unfolding_all rfl))
    (by with_unfolding_all rfl)

/-- C3: for every successful solve, the components of the returned proportion
vector sum to 1 within a tolerance of one millionth. -/
theorem c3_sum_invariant (materials : List String) (prices mins maxs x : List ℚ) (cst : ℚ)
    (hp : prices.length = materials.length)
    (hm : mins.length = prices.length) (hx : maxs.length = prices.length)
    (hbd : ∀ i < prices.length, mins.getD i 0 ≤ maxs.getD i 0)
    (hok : optimize_cost materials prices mins maxs = PyCall.ok (some x, some cst)) :
    |x.sum - 1| ≤ 1 / 1000000 := by
  obtain ⟨hs, hxv, hcv⟩ := optimize_success_inv materials prices mins maxs x cst hp hm hx hok
  obtain ⟨hf1, hf2⟩ := core_feasible_of_success prices mins maxs hs
  obtain ⟨t, hcore, hlen, hsum, hbds, hopt⟩ :=
    core_success prices mins maxs hm.symm hx.symm hbd hf1 hf2
  rw [hcore] at hxv
  have hxv2 : x = solveX prices mins maxs t := hxv
  have hone : x.sum = 1 := by rw [hxv2]; exact hsum
  rw [hone]
  norm_num

theorem c3_sum_invariant_witness : |(([0, 1] : List ℚ).sum - 1)| ≤ 1 / 1000000 :=
  c3_sum_invariant ["A", "B"] [10, 2] [0, 0] [1, 1] [0, 1] 2 rfl rfl rfl
    (of_decide_eq_true (by with_unfolding_all rfl))
    (by with_unfolding_all rfl)

/-- C4: for every successful solve, every component of the returned vector
lies within its box bounds, and a material whose two bounds coincide is
pinned exactly to that shared value. -/
theorem c4_bound_respect (materials : List String) (prices mins maxs x : List ℚ) (cst : ℚ)
    (hp : prices.length = materials.length)
    (hm : mins.length = prices.length) (hx : maxs.length = prices.length)
    (hbd : ∀ i < prices.length, mins.getD i 0 ≤ maxs.getD i 0)
    (hok : optimize_cost materials prices mins maxs = PyCall.ok (some x, some cst)) :
    (∀ i < materials.length, mins.getD i 0 ≤ x.getD i 0 ∧ x.getD i 0 ≤ maxs.getD i 0) ∧
    (∀ i < materials.length, mins.getD i 0 = maxs.getD i 0 → x.getD i 0 = mins.getD i 0) := by
  obtain ⟨hs, hxv, hcv⟩ := optimize_success_inv materials prices mins maxs x cst hp hm hx hok
  obtain ⟨hf1, hf2⟩ := core_feasible_of_success prices mins maxs hs
  obtain ⟨t, hcore, hlen, hsum, hbds, hopt⟩ :=
    core_success prices mins maxs hm.symm hx.symm hbd hf1 hf2
  rw [hcore] at hxv
  have hxv2 : x = solveX prices mins maxs t := hxv
  constructor
  · intro i hi
    rw [hxv2]
    exact hbds i (by rw [hp]; exact hi)
  · intro i hi hpin
    have hb : mins.getD i 0 ≤ x.getD i 0 ∧ x.getD i 0 ≤ maxs.getD i 0 := by
      rw [hxv2]
      exact hbds i (by rw [hp]; exact hi)
    have hup : x.getD i 0 ≤ mins.getD i 0 := by rw [hpin]; exact hb.2
    exact le_antisymm hup hb.1

theorem c4_bound_respect_witness :
    (∀ i < (["A", "B"] : List String).length,
      ([0, 1/2] : List ℚ).getD i 0 ≤ ([1/2, 1/2] : List ℚ).getD i 0 ∧
      ([1/2, 1/2] : List ℚ).getD i 0 ≤ ([1, 1/2] : List ℚ).getD i 0) ∧
    (∀ i < (["A", "B"] : List String).length,
      ([0, 1/2] : List ℚ).getD i 0 = ([1, 1/2] : List ℚ).getD i 0 →
      ([1/2, 1/2] : List ℚ).getD i 0 = ([0, 1/2] : List ℚ).getD i 0) :=
  c4_bound_respect ["A", "B"] [10, 2] [0, 1/2] [1, 1/2] [1/2, 1/2] 6 rfl rfl rfl
    (of_decide_eq_true (by with_unfolding_all rfl))
    (by with_unfolding_all rfl)

/-- C5: the solver accepts any number N ≥ 1 of materials: for every
well-formed input of N unit costs and N bound pairs the call returns without
raising, yielding either a successful pair or the infeasibility signal
according to whether the bounds admit a vector summing to 1. -/
theorem c5_any_material_count (materials : List String) (prices mins maxs : List ℚ)
    (hN : 1 ≤ materials.length)
    (hp : prices.length = materials.length)
    (hm : mins.length = prices.length) (hx : maxs.length = prices.length)
    (hcost : ∀ i < prices.length, 0 ≤ prices.getD i 0)
    (hlo : ∀ i < prices.length, 0 ≤ mins.getD i 0)
    (hhi : ∀ i < prices.length, maxs.getD i 0 ≤ 1)
    (hbd : ∀ i < prices.length, mins.getD i 0 ≤ maxs.getD i 0) :
    ∃ out, optimize_cost materials prices mins maxs = PyCall.ok out ∧
      ((mins.sum ≤ 1 ∧ 1 ≤ maxs.sum) → ∃ x cst, out = (some x, some cst)) ∧
      (¬(mins.sum ≤ 1 ∧ 1 ≤ maxs.sum) → out = (none, none)) := by
  refine ⟨optimizeReturn (linprogCore prices mins maxs),
    optimize_cost_eq materials prices mins maxs hp hm hx, ?_, ?_⟩
  · rintro ⟨hf1, hf2⟩
    obtain ⟨t, hcore, _⟩ := core_success prices mins maxs hm.symm hx.symm hbd hf1 hf2
    rw [hcore]
    exact ⟨solveX prices mins maxs t, dot prices (solveX prices mins maxs t), rfl⟩
  · intro hn
    rw [core_infeasible prices mins maxs hn]
    rfl

theorem c5_any_material_count_witness :
    ∃ out, optimize_cost ["A"] [2] [0] [1] = PyCall.ok out ∧
      ((([0] : List ℚ).sum ≤ 1 ∧ 1 ≤ ([1] : List ℚ).sum) →
        ∃ x cst, out = (some x, some cst)) ∧
      (¬(([0] : List ℚ).sum ≤ 1 ∧ 1 ≤ ([1] : List ℚ).sum) → out = (none, none)) :=
  c5_any_material_count ["A"] [2] [0] [1] (by decide) rfl rfl rfl
    (of_decide_eq_true (by with_unfolding_all rfl))
    (of_decide_eq_true (by with_unfolding_all rfl))
    (of_decide_eq_true (by with_unfolding_all rfl))
    (of_decide_eq_true (by with_unfolding_all rfl))

/-- C6: on the concrete two-material example with unit costs 10 and 2, free
bounds and reference blend one half each, the solve returns proportions
[0, 1] with optimal cost 2, and the comparator reports reference cost 6,
optimal cost 2, savings 4 and the two contribution breakdowns. -/
theorem c6_comparator_example :
    optimize_cost ["A", "B"] [10, 2] [0, 0] [1, 1] = PyCall.ok (some [0, 1], some 2) ∧
    compare_blends [1/2, 1/2] [0, 1] [10, 2] = some (6, 2, 4, [5, 1], [0, 2]) := by
  constructor
  · with_unfolding_all rfl
  · with_unfolding_all rfl

/-- C7: on every well-formed input whose bounds are infeasible, the function
returns exactly the pair (None, None): no partial or approximate vector is
produced, and the signal is distinct from every valid answer because None
differs from every some vector. -/
theorem c7_failure_signal (materials : List String) (prices mins maxs : List ℚ)
    (hp : prices.length = materials.length)
    (hm : mins.length = prices.length) (hx : maxs.length = prices.length)
    (hinf : ¬(mins.sum ≤ 1 ∧ 1 ≤ maxs.sum)) :
    optimize_cost materials prices mins maxs = PyCall.ok (none, none) ∧
    ∀ xs : List ℚ, (none : Option (List ℚ)) ≠ some xs := by
  constructor
  · rw [optimize_cost_eq materials prices mins maxs hp hm hx,
      core_infeasible prices mins maxs hinf]
    rfl
  · intro xs h
    exact Option.noConfusion h

theorem c7_failure_signal_witness :
    optimize_cost ["A", "B"] [5, 7] [3/5, 3/5] [1, 1] = PyCall.ok (none, none) ∧
    ∀ xs : List ℚ, (none : Option (List ℚ)) ≠ some xs :=
  c7_failure_signal ["A", "B"] [5, 7] [3/5, 3/5] [1, 1] rfl rfl rfl
    (of_decide_eq_true (by with_unfolding_all rfl))

/-- C8: the comparator fails exactly when the optimal vector length differs
from the reference length (given unit costs aligned with the reference),
producing no numeric output; on matched lengths it returns the reference
cost, the optimal cost, the savings and the two per-material breakdowns,
purely from its inputs. -/
theorem c8_comparator_contract (reference optimal prices : List ℚ)
    (h : reference.length = prices.length) :
    (compare_blends reference optimal prices = none ↔
      optimal.length ≠ reference.length) ∧
    (optimal.length = reference.length →
      compare_blends reference optimal prices =
        some (dot reference prices, dot optimal prices,
          dot reference prices - dot optimal prices,
          List.zipWith (· * ·) reference prices,
          List.zipWith (· * ·) optimal prices)) := by
  unfold compare_blends calculate_cost
  rw [if_pos h]
  by_cases h2 : optimal.length = prices.length
  · rw [if_pos h2]
    constructor
    · constructor
      · intro hn
        exact Option.noConfusion hn
      · intro hne
        exact absurd (h2.trans h.symm) hne
    · intro _
      rfl
  · rw [if_neg h2]
    constructor
    · constructor
      · intro _ he
        exact h2 (he.trans h)
      · intro _
        rfl
    · intro he
      exact absurd (he.trans h) h2

theorem c8_comparator_contract_witness :
    ((compare_blends [1/2, 1/2] [1, 0] [10, 2] = none ↔
      ([1, 0] : List ℚ).length ≠ ([1/2, 1/2] : List ℚ).length) ∧
    (([1, 0] : List ℚ).length = ([1/2, 1/2] : List ℚ).length →
      compare_blends [1/2, 1/2] [1, 0] [10, 2] =
        some (dot [1/2, 1/2] [10, 2], dot [1, 0] [10, 2],
          dot [1/2, 1/2] [10, 2] - dot [1, 0] [10, 2],
          List.zipWith (· * ·) [1/2, 1/2] [10, 2],
          List.zipWith (· * ·) [1, 0] [10, 2]))) :=
  c8_comparator_contract [1/2, 1/2] [1, 0] [10, 2] rfl

/-- C9: the strength and fineness targets have no influence on the
optimization: two runs with identical prices and ratio bounds but different
target values return identical results, because the targets are never passed
to the solver. -/
theorem c9_targets_cosmetic (prices mins maxs : List ℚ) (s1 f1 s2 f2 : ℚ) :
    runOptimization prices mins maxs s1 f1 = runOptimization prices mins maxs s2 f2 := rfl

/-- C10: whenever the solver result does not report success, whatever its
status code (infeasible, iteration limit, or anything else) and whatever
partial data it carries, the postprocessing returns exactly the pair
(None, None), so the failure causes are indistinguishable at the interface. -/
theorem c10_failure_collapse (r1 r2 : LinprogResult)
    (h1 : r1.success = false) (h2 : r2.success = false) :
    optimizeReturn r1 = (none, none) ∧ optimizeReturn r1 = optimizeReturn r2 := by
  have e1 : optimizeReturn r1 = (none, none) := by
    unfold optimizeReturn
    rw [if_neg (by rw [h1]; exact Bool.false_ne_true)]
  have e2 : optimizeReturn r2 = (none, none) := by
    unfold optimizeReturn
    rw [if_neg (by rw [h2]; exact Bool.false_ne_true)]
  exact ⟨e1, e1.trans e2.symm⟩

theorem c10_failure_collapse_witness :
    optimizeReturn ⟨false, 2, [], 0⟩ = (none, none) ∧
    optimizeReturn ⟨false, 2, [], 0⟩ = optimizeReturn ⟨false, 1, [1/2, 1/2], 5⟩ :=
  c10_failure_collapse ⟨false, 2, [], 0⟩ ⟨false, 1, [1/2, 1/2], 5⟩ rfl rfl
